import Mathlib

/-!
Shallow embedding of the crypto-currency-playground ledger engine
(`src/block.ts`, `src/miner.ts`, the Transaction module) in Lean 4.

Modelling conventions:
* JavaScript numbers that only ever hold integer values in this program
  (indices, timestamps, nonces, amounts, rewards) are modelled as `Int`;
  `difficulty` is the repetition count of `'0'.repeat(difficulty)` and is
  modelled as `Nat`.
* `CryptoJS.SHA256(data).toString()` is an opaque deterministic function of
  the input string; every definition and theorem is parametrised over
  `H : String → String` standing for it.
* Elliptic-curve signature verification (`ec.keyFromPublic` + `verify`,
  including the surrounding try/catch that turns any throw into `false`) is
  an opaque total predicate `V : String → String → String → Bool` taking
  the public key, the hex digest that was signed, and the signature.
* The unbounded `while (true)` mining loop is modelled with explicit fuel:
  `none` means the loop did not finish within the given fuel (the source
  loop simply has not returned yet).
* `Date.now()` timestamps are passed in as explicit arguments.
* Thrown exceptions are modelled with `Except` / `Option` / explicit result
  constructors; the in-place mutation of the TypeScript classes is modelled
  by returning the updated state.
-/

namespace Playground

/-- Model of a JSON value, used for the `toJSON` / `fromJSON` layer.
Numbers are restricted to the integral values this program produces. -/
inductive Json where
  | null : Json
  | bool (b : Bool) : Json
  | num (n : Int) : Json
  | str (s : String) : Json
  | arr (elems : List Json) : Json
  | obj (fields : List (String × Json)) : Json

/-- JSON string escaping as performed by `JSON.stringify` for the quote and
backslash characters (the only escapes relevant to the strings this program
produces). -/
def escapeString (s : String) : String :=
  s.foldl (fun acc c =>
    if c = '"' then acc ++ "\\\""
    else if c = '\\' then acc ++ "\\\\"
    else acc ++ String.singleton c) ""

mutual

/-- Model of `JSON.stringify` on the `Json` values above (object fields in
insertion order, no whitespace, exactly as JavaScript prints them). -/
def Json.stringify : Json → String
  | .null => "null"
  | .bool true => "true"
  | .bool false => "false"
  | .num n => toString n
  | .str s => "\"" ++ escapeString s ++ "\""
  | .arr xs => "[" ++ Json.stringifyList xs ++ "]"
  | .obj fs => "\x7b" ++ Json.stringifyFields fs ++ "\x7d"

/-- Comma-separated rendering of a JSON array's elements. -/
def Json.stringifyList : List Json → String
  | [] => ""
  | [x] => Json.stringify x
  | x :: y :: rest => Json.stringify x ++ "," ++ Json.stringifyList (y :: rest)

/-- Comma-separated rendering of a JSON object's fields. -/
def Json.stringifyFields : List (String × Json) → String
  | [] => ""
  | [(k, v)] => "\"" ++ escapeString k ++ "\":" ++ Json.stringify v
  | (k, v) :: f :: rest =>
      "\"" ++ escapeString k ++ "\":" ++ Json.stringify v ++ "," ++
        Json.stringifyFields (f :: rest)

end

/-- Field access `data.key` on a parsed JSON object (`undefined`, i.e. a
missing field or a non-object receiver, is `none`). -/
def Json.getField : Json → String → Option Json
  | .obj fields, k => (fields.lookup k)
  | _, _ => none

/-- String prefix test, modelling `String.prototype.startsWith`. -/
def strStartsWith (s pre : String) : Bool :=
  pre.toList.isPrefixOf s.toList

/-- Model of `'0'.repeat(difficulty)`, the mining target string. -/
def zeros (difficulty : Nat) : String :=
  String.mk (List.replicate difficulty '0')

/-- The reward sentinel sender used by `Transaction.createMiningReward` and
checked by `addTransaction` / `isValid`. -/
def MINING_REWARD : String := "MINING_REWARD"

/-- The `Transaction` class: `{sender, recipient, amount, timestamp,
signature?}`. -/
structure Transaction where
  sender : String
  recipient : String
  amount : Int
  timestamp : Int
  signature : Option String
deriving DecidableEq, Repr

/-- The `Transaction` constructor: throws `InvalidAmountError` when
`amount <= 0` (modelled as `none`), otherwise records the fields with the
construction-time timestamp and no signature. -/
def Transaction.create (sender recipient : String) (amount : Int)
    (now : Int) : Option Transaction :=
  if amount ≤ 0 then none
  else some { sender := sender, recipient := recipient, amount := amount,
              timestamp := now, signature := none }

/-- `Transaction.createMiningReward`: a transaction from the reward sentinel
to the miner (it goes through the ordinary constructor, so a non-positive
reward throws `InvalidAmountError`). -/
def Transaction.createMiningReward (minerAddress : String) (reward : Int)
    (now : Int) : Option Transaction :=
  Transaction.create MINING_REWARD minerAddress reward now

/-- `Transaction.calculateHash`: SHA-256 of
`sender + recipient + amount.toString() + timestamp.toString()`. -/
def Transaction.calculateHash (H : String → String) (t : Transaction) :
    String :=
  H (t.sender ++ t.recipient ++ toString t.amount ++ toString t.timestamp)

/-- `Transaction.isValid`: reward transactions (empty sender or the
`MINING_REWARD` sentinel) are always valid; otherwise a missing signature is
invalid, and a present signature is checked with the sender's public key
against the transaction digest. -/
def Transaction.isValid (H : String → String)
    (V : String → String → String → Bool) (t : Transaction) : Bool :=
  if t.sender = "" ∨ t.sender = MINING_REWARD then
    true
  else
    match t.signature with
    | none => false
    | some sig => V t.sender (t.calculateHash H) sig

/-- `Transaction.toJSON`: the five fields in insertion order; an absent
signature is `undefined` and is dropped by `JSON.stringify`. -/
def Transaction.toJSON (t : Transaction) : Json :=
  .obj ([("sender", .str t.sender), ("recipient", .str t.recipient),
         ("amount", .num t.amount), ("timestamp", .num t.timestamp)] ++
        (match t.signature with
         | none => []
         | some s => [("signature", .str s)]))

/-- The `Block` class: `{index, timestamp, transactions, previousHash,
nonce, hash}`. -/
structure Block where
  index : Int
  timestamp : Int
  transactions : List Transaction
  previousHash : String
  nonce : Int
  hash : String
deriving DecidableEq, Repr

/-- The string `JSON.stringify(this.transactions)` used inside
`Block.calculateHash` (each `Transaction` is stringified through its
`toJSON` method). -/
def txArrayString (txs : List Transaction) : String :=
  Json.stringify (.arr (txs.map Transaction.toJSON))

/-- The concatenation hashed by `Block.calculateHash`:
`index + previousHash + timestamp + JSON.stringify(transactions) + nonce`. -/
def Block.blockData (b : Block) : String :=
  toString b.index ++ b.previousHash ++ toString b.timestamp ++
    txArrayString b.transactions ++ toString b.nonce

/-- `Block.calculateHash`: SHA-256 of `blockData` (every field except the
stored `hash` itself). -/
def Block.calculateHash (H : String → String) (b : Block) : String :=
  H b.blockData

/-- The `Block` constructor: records the fields and immediately computes the
stored hash with `calculateHash`. -/
def Block.make (H : String → String) (index timestamp : Int)
    (transactions : List Transaction) (previousHash : String)
    (nonce : Int := 0) : Block :=
  { index := index, timestamp := timestamp, transactions := transactions,
    previousHash := previousHash, nonce := nonce,
    hash := H (toString index ++ previousHash ++ toString timestamp ++
               txArrayString transactions ++ toString nonce) }

/-- `Block.toJSON`: the six fields in insertion order. -/
def Block.toJSON (b : Block) : Json :=
  .obj [("index", .num b.index), ("timestamp", .num b.timestamp),
        ("transactions", .arr (b.transactions.map Transaction.toJSON)),
        ("previousHash", .str b.previousHash), ("nonce", .num b.nonce),
        ("hash", .str b.hash)]

/-- Result record of `Miner.mine` (the wall-clock `timeMs` field is
omitted: it is real time, outside the embedding). -/
structure MiningResult where
  nonce : Int
  hash : String
  attempts : Nat
deriving DecidableEq, Repr

/-- The body of `Miner.mine`'s `while (true)` loop, with explicit fuel:
compute the hash at the current nonce; if it meets the target, store it in
the block and return, else increment the nonce and retry. -/
def Miner.mineAux (H : String → String) (difficulty : Nat) :
    Nat → Block → Nat → Option (MiningResult × Block)
  | 0, _, _ => none
  | fuel + 1, b, attempts =>
      let h := Block.calculateHash H b
      if strStartsWith h (zeros difficulty) then
        some ({ nonce := b.nonce, hash := h, attempts := attempts + 1 },
              { b with hash := h })
      else
        Miner.mineAux H difficulty fuel { b with nonce := b.nonce + 1 }
          (attempts + 1)

/-- `Miner.mine(block)` for a miner constructed at the given difficulty. -/
def Miner.mine (H : String → String) (difficulty : Nat) (fuel : Nat)
    (b : Block) : Option (MiningResult × Block) :=
  Miner.mineAux H difficulty fuel b 0

/-- The `Blockchain` class: `{chain, pendingTransactions, difficulty,
miningReward}`. -/
structure Blockchain where
  chain : List Block
  pendingTransactions : List Transaction
  difficulty : Nat
  miningReward : Int
deriving DecidableEq, Repr

/-- `Blockchain.createGenesisBlock`: build `new Block(0, Date.now(), [],
'0')` and mine it at the ledger's difficulty. -/
def Blockchain.createGenesisBlock (H : String → String) (difficulty : Nat)
    (fuel : Nat) (now : Int) : Option Block :=
  (Miner.mine H difficulty fuel (Block.make H 0 now [] "0" 0)).map
    Prod.snd

/-- The `Blockchain` constructor: fix the difficulty and mining reward,
start with an empty pending pool and the freshly mined genesis block. -/
def Blockchain.create (H : String → String) (difficulty : Nat)
    (miningReward : Int) (now : Int) (fuel : Nat) : Option Blockchain :=
  (Blockchain.createGenesisBlock H difficulty fuel now).map fun g =>
    { chain := [g], pendingTransactions := [], difficulty := difficulty,
      miningReward := miningReward }

/-- `Blockchain.getLatestBlock`: `chain[chain.length - 1]` (an empty chain
would crash, modelled as `none`). -/
def Blockchain.getLatestBlock (bc : Blockchain) : Option Block :=
  bc.chain.getLast?

/-- `Blockchain.getBalanceOfAddress`: fold over every transaction of every
chained block, subtracting sent amounts and adding received amounts. -/
def Blockchain.getBalanceOfAddress (bc : Blockchain) (address : String) :
    Int :=
  bc.chain.foldl (fun balance b =>
    b.transactions.foldl (fun balance t =>
      let balance := if t.sender = address then balance - t.amount
                     else balance
      if t.recipient = address then balance + t.amount else balance)
      balance) 0

/-- Outcome of `Blockchain.addTransaction`, carrying the ledger state after
the call: `accepted` is `return true` with the transaction pushed,
`rejected` is `return false`, `insufficientBalance` is the thrown
`InsufficientBalanceError`. -/
inductive AddTxResult where
  | accepted (bc : Blockchain) : AddTxResult
  | rejected (bc : Blockchain) : AddTxResult
  | insufficientBalance (bc : Blockchain) : AddTxResult
deriving DecidableEq, Repr

/-- `Blockchain.addTransaction`: non-reward transactions must carry a valid
signature (else `return false`) and a confirmed balance at least the amount
(else throw `InsufficientBalanceError`); then the transaction is pushed
onto the pending pool and the call returns `true`. -/
def Blockchain.addTransaction (H : String → String)
    (V : String → String → String → Bool) (bc : Blockchain)
    (t : Transaction) : AddTxResult :=
  if t.sender ≠ MINING_REWARD then
    if ¬ (t.isValid H V) then .rejected bc
    else if bc.getBalanceOfAddress t.sender < t.amount then
      .insufficientBalance bc
    else .accepted
      { bc with pendingTransactions := bc.pendingTransactions ++ [t] }
  else .accepted
    { bc with pendingTransactions := bc.pendingTransactions ++ [t] }

/-- `Blockchain.minePendingTransactions`: append the reward transaction to
the pool, build a block from a snapshot of the pool on top of the latest
block, mine it, append it to the chain and clear the pool. `rewardNow` and
`blockNow` are the two `Date.now()` reads. -/
def Blockchain.minePendingTransactions (H : String → String)
    (bc : Blockchain) (minerAddress : String) (rewardNow blockNow : Int)
    (fuel : Nat) : Option (Block × Blockchain) :=
  match Transaction.createMiningReward minerAddress bc.miningReward
      rewardNow with
  | none => none
  | some rewardTx =>
    match bc.chain.getLast? with
    | none => none
    | some latest =>
      match Miner.mine H bc.difficulty fuel
          (Block.make H (bc.chain.length : Int) blockNow
            (bc.pendingTransactions ++ [rewardTx]) latest.hash 0) with
      | none => none
      | some (_, mined) =>
        some (mined,
          { bc with chain := bc.chain ++ [mined],
                    pendingTransactions := [] })

/-- A default block used only to give the in-bounds `chain[i]` accesses of
`isChainValid` a total Lean reading. -/
def dummyBlock : Block :=
  { index := 0, timestamp := 0, transactions := [], previousHash := "",
    nonce := 0, hash := "" }

/-- The three per-block checks of `isChainValid`'s loop body: stored hash
recomputes, previousHash links to the predecessor, hash meets the target. -/
def blockOk (H : String → String) (target : String) (prev cur : Block) :
    Bool :=
  (cur.hash == Block.calculateHash H cur) &&
    (cur.previousHash == prev.hash) && strStartsWith cur.hash target

/-- `Blockchain.isChainValid`: run the loop body for `i = 1 .. length-1`,
short-circuiting to `false` on any failed check. -/
def Blockchain.isChainValid (H : String → String) (bc : Blockchain) :
    Bool :=
  let target := zeros bc.difficulty
  (List.range bc.chain.length).all fun i =>
    if i = 0 then true
    else blockOk H target (bc.chain.getD (i - 1) dummyBlock)
      (bc.chain.getD i dummyBlock)

/-- `Blockchain.getTransactionHistory`: every chained transaction with the
address as sender or recipient, in chain order. -/
def Blockchain.getTransactionHistory (bc : Blockchain) (address : String) :
    List Transaction :=
  bc.chain.foldl (fun history b =>
    history ++ b.transactions.filter
      (fun t => t.sender = address ∨ t.recipient = address)) []

/-- `Blockchain.toJSON`: the four fields, blocks and pending transactions
through their own `toJSON`. -/
def Blockchain.toJSON (bc : Blockchain) : Json :=
  .obj [("chain", .arr (bc.chain.map Block.toJSON)),
        ("pendingTransactions",
          .arr (bc.pendingTransactions.map Transaction.toJSON)),
        ("difficulty", .num (bc.difficulty : Int)),
        ("miningReward", .num bc.miningReward)]

end Playground

namespace Playground

/-! ## Chain invariants -/

/-- The ledger chain invariant of the specification: a non-empty chain, the
genesis block with previousHash `"0"` and no transactions, and for every
`i ≥ 1` a correct back-link and a hash meeting the difficulty target. -/
def chainInvariant (bc : Blockchain) : Prop :=
  bc.chain ≠ [] ∧
  (bc.chain.headD dummyBlock).previousHash = "0" ∧
  (bc.chain.headD dummyBlock).transactions = [] ∧
  ∀ i, i < bc.chain.length → 1 ≤ i →
    (bc.chain.getD i dummyBlock).previousHash =
      (bc.chain.getD (i - 1) dummyBlock).hash ∧
    strStartsWith (bc.chain.getD i dummyBlock).hash
      (zeros bc.difficulty) = true

instance (bc : Blockchain) : Decidable (chainInvariant bc) := by
  unfold chainInvariant
  infer_instance

/-- Every block of the chain stores exactly its recomputed digest (the
specification's well-formedness invariant of a `Block`). -/
def blocksWF (H : String → String) (bc : Blockchain) : Prop :=
  ∀ b ∈ bc.chain, b.hash = Block.calculateHash H b

instance (H : String → String) (bc : Blockchain) :
    Decidable (blocksWF H bc) := by
  unfold blocksWF
  infer_instance

/-- States of the ledger reachable from a constructor call by successful
`addTransaction` and `minePendingTransactions` calls. -/
inductive Reachable (H : String → String)
    (V : String → String → String → Bool) : Blockchain → Prop
  | init (difficulty : Nat) (miningReward now : Int) (fuel : Nat)
      (bc : Blockchain) :
      Blockchain.create H difficulty miningReward now fuel = some bc →
      Reachable H V bc
  | add (bc bc' : Blockchain) (t : Transaction) :
      Reachable H V bc →
      Blockchain.addTransaction H V bc t = .accepted bc' →
      Reachable H V bc'
  | mine (bc bc' : Blockchain) (blk : Block) (minerAddress : String)
      (rewardNow blockNow : Int) (fuel : Nat) :
      Reachable H V bc →
      Blockchain.minePendingTransactions H bc minerAddress rewardNow
        blockNow fuel = some (blk, bc') →
      Reachable H V bc'

/-! ## Mining helper lemmas -/

/-- `calculateHash` never reads the stored `hash` field. -/
theorem calculateHash_set_hash (H : String → String) (b : Block)
    (h : String) :
    Block.calculateHash H { b with hash := h } = Block.calculateHash H b :=
  rfl

/-- What the mining loop guarantees whenever it returns: only `nonce` and
`hash` changed, the stored hash is the recomputed digest at the returned
nonce, and it meets the difficulty target. -/
theorem mineAux_spec (H : String → String) (difficulty : Nat) :
    ∀ (fuel : Nat) (b : Block) (attempts : Nat) (r : MiningResult)
      (b' : Block),
      Miner.mineAux H difficulty fuel b attempts = some (r, b') →
      b'.index = b.index ∧ b'.timestamp = b.timestamp ∧
      b'.transactions = b.transactions ∧
      b'.previousHash = b.previousHash ∧
      b'.nonce = r.nonce ∧ b'.hash = r.hash ∧
      r.hash = Block.calculateHash H b' ∧
      strStartsWith r.hash (zeros difficulty) = true := by
  intro fuel
  induction fuel with
  | zero => intro b attempts r b' h; simp [Miner.mineAux] at h
  | succ n ih =>
    intro b attempts r b' h
    rw [Miner.mineAux] at h
    by_cases hs : strStartsWith (Block.calculateHash H b)
        (zeros difficulty) = true
    · simp only [hs, if_true, Option.some.injEq, Prod.mk.injEq] at h
      obtain ⟨hr, hb⟩ := h
      subst hr
      subst hb
      exact ⟨rfl, rfl, rfl, rfl, rfl, rfl, rfl, hs⟩
    · simp only [hs, if_false, Bool.false_eq_true] at h
      have := ih { b with nonce := b.nonce + 1 } (attempts + 1) r b' h
      simpa using this

/-- `Miner.mine` specification, restated from `mineAux_spec`. -/
theorem mine_spec (H : String → String) (difficulty fuel : Nat) (b : Block)
    (r : MiningResult) (b' : Block)
    (h : Miner.mine H difficulty fuel b = some (r, b')) :
    b'.index = b.index ∧ b'.timestamp = b.timestamp ∧
    b'.transactions = b.transactions ∧ b'.previousHash = b.previousHash ∧
    b'.nonce = r.nonce ∧ b'.hash = r.hash ∧
    r.hash = Block.calculateHash H b' ∧
    strStartsWith r.hash (zeros difficulty) = true :=
  mineAux_spec H difficulty fuel b 0 r b' h

end Playground

namespace Playground

/-! ## List access helper lemmas -/

theorem getD_append_lt {α : Type} (l₁ l₂ : List α) (d : α) :
    ∀ i, i < l₁.length → (l₁ ++ l₂).getD i d = l₁.getD i d := by
  induction l₁ with
  | nil => intro i h; exact absurd h (Nat.not_lt_zero i)
  | cons a l ih =>
    intro i h
    cases i with
    | zero => rfl
    | succ j => exact ih j (Nat.lt_of_succ_lt_succ h)

theorem getD_append_len {α : Type} (l : List α) (b : α) (d : α) :
    (l ++ [b]).getD l.length d = b := by
  induction l with
  | nil => rfl
  | cons a l ih => exact ih

theorem headD_append {α : Type} (l l₂ : List α) (d : α) (h : l ≠ []) :
    (l ++ l₂).headD d = l.headD d := by
  cases l with
  | nil => exact absurd rfl h
  | cons a t => rfl

theorem getD_set_eq {α : Type} (b d : α) :
    ∀ (l : List α) (k : Nat), k < l.length → (l.set k b).getD k d = b := by
  intro l
  induction l with
  | nil => intro k h; exact absurd h (Nat.not_lt_zero k)
  | cons a t ih =>
    intro k h
    cases k with
    | zero => rfl
    | succ j => exact ih j (Nat.lt_of_succ_lt_succ h)

theorem getD_set_ne {α : Type} (b d : α) :
    ∀ (l : List α) (k i : Nat), k ≠ i →
      (l.set k b).getD i d = l.getD i d := by
  intro l
  induction l with
  | nil => intro k i _; cases k <;> rfl
  | cons a t ih =>
    intro k i hne
    cases k with
    | zero =>
      cases i with
      | zero => exact absurd rfl hne
      | succ j => rfl
    | succ m =>
      cases i with
      | zero => rfl
      | succ j => exact ih m j (fun he => hne (by rw [he]))

/-! ## addTransaction and minePendingTransactions characterizations -/

/-- A successful `addTransaction` only appends the transaction to the
pending pool. -/
theorem addTransaction_accepted_eq (H : String → String)
    (V : String → String → String → Bool) (bc : Blockchain)
    (t : Transaction) (bc' : Blockchain)
    (h : Blockchain.addTransaction H V bc t = .accepted bc') :
    bc' = { bc with pendingTransactions := bc.pendingTransactions ++ [t] }
    := by
  unfold Blockchain.addTransaction at h
  split at h
  · split at h
    · exact absurd h (by simp)
    · split at h
      · exact absurd h (by simp)
      · simp only [AddTxResult.accepted.injEq] at h
        exact h.symm
  · simp only [AddTxResult.accepted.injEq] at h
    exact h.symm

/-- What a returned `minePendingTransactions` call guarantees about the
mined block and the new ledger state. -/
theorem minePending_spec (H : String → String) (bc : Blockchain)
    (minerAddress : String) (rewardNow blockNow : Int) (fuel : Nat)
    (blk : Block) (bc' : Blockchain)
    (h : Blockchain.minePendingTransactions H bc minerAddress rewardNow
      blockNow fuel = some (blk, bc')) :
    bc'.chain = bc.chain ++ [blk] ∧ bc'.pendingTransactions = [] ∧
    bc'.difficulty = bc.difficulty ∧ bc'.miningReward = bc.miningReward ∧
    (∃ latest, bc.chain.getLast? = some latest ∧
      blk.previousHash = latest.hash) ∧
    blk.index = (bc.chain.length : Int) ∧ blk.timestamp = blockNow ∧
    (∃ rewardTx, Transaction.createMiningReward minerAddress
        bc.miningReward rewardNow = some rewardTx ∧
      blk.transactions = bc.pendingTransactions ++ [rewardTx]) ∧
    blk.hash = Block.calculateHash H blk ∧
    strStartsWith blk.hash (zeros bc.difficulty) = true := by
  unfold Blockchain.minePendingTransactions at h
  split at h
  · exact absurd h (by simp)
  · rename_i rewardTx hc
    split at h
    · exact absurd h (by simp)
    · rename_i latest hl
      split at h
      · exact absurd h (by simp)
      · rename_i res mined hm
        simp only [Option.some.injEq, Prod.mk.injEq] at h
        obtain ⟨hblk, hbc⟩ := h
        subst hblk
        subst hbc
        obtain ⟨hi, ht, htx, hp, _, hh, hdig, hpre⟩ :=
          mine_spec _ _ _ _ _ _ hm
        refine ⟨rfl, rfl, rfl, rfl, ⟨latest, hl, hp⟩, hi, ht,
          ⟨rewardTx, hc, htx⟩, ?_, ?_⟩
        · rw [hh, hdig]
        · rw [hh]; exact hpre

end Playground

namespace Playground

/-- Relate `getLast?` to indexing at `length - 1`. -/
theorem getLast?_getD {α : Type} (d : α) :
    ∀ (l : List α) (x : α), l.getLast? = some x →
      x = l.getD (l.length - 1) d := by
  intro l
  induction l with
  | nil => intro x h; simp [List.getLast?] at h
  | cons a t ih =>
    intro x h
    cases t with
    | nil =>
      simp [List.getLast?] at h
      rw [h]
      rfl
    | cons b t2 =>
      rw [List.getLast?_cons_cons] at h
      exact ih x h

/-- What the `Blockchain` constructor guarantees when the genesis mining
loop returns. -/
theorem create_spec (H : String → String) (difficulty : Nat)
    (miningReward now : Int) (fuel : Nat) (bc : Blockchain)
    (h : Blockchain.create H difficulty miningReward now fuel = some bc) :
    bc.pendingTransactions = [] ∧ bc.difficulty = difficulty ∧
    bc.miningReward = miningReward ∧
    ∃ g, bc.chain = [g] ∧ g.previousHash = "0" ∧ g.transactions = [] ∧
      g.hash = Block.calculateHash H g ∧
      strStartsWith g.hash (zeros difficulty) = true := by
  unfold Blockchain.create Blockchain.createGenesisBlock at h
  cases hm : Miner.mine H difficulty fuel (Block.make H 0 now [] "0" 0) with
  | none => rw [hm] at h; exact absurd h (by simp)
  | some p =>
    obtain ⟨res, g⟩ := p
    rw [hm] at h
    simp only [Option.map_some', Option.some.injEq] at h
    subst h
    obtain ⟨_, _, htx, hp, _, hh, hdig, hpre⟩ := mine_spec _ _ _ _ _ _ hm
    exact ⟨rfl, rfl, rfl, g, rfl, hp, htx, by rw [hh, hdig], by
      rw [hh]; exact hpre⟩

/-- C1. For every ledger constructed with any difficulty and mining reward,
and after every finite sequence of successful `addTransaction` and
`minePendingTransactions` calls, the chain is non-empty, `chain[0]` has
`previousHash = "0"` and an empty transaction list, and for every `i ≥ 1`,
`chain[i].previousHash` equals `chain[i-1].hash` and `chain[i].hash` begins
with `difficulty` zero characters. -/
theorem c1_ledger_invariant (H : String → String)
    (V : String → String → String → Bool) (bc : Blockchain)
    (h : Reachable H V bc) : chainInvariant bc := by
  induction h with
  | init difficulty miningReward now fuel bc hc =>
    obtain ⟨_, hd, _, g, hchain, hprev, htx, _, hpre⟩ :=
      create_spec _ _ _ _ _ _ hc
    refine ⟨by rw [hchain]; simp, by rw [hchain]; exact hprev,
      by rw [hchain]; exact htx, ?_⟩
    intro i hilen h1i
    rw [hchain] at hilen
    simp only [List.length_singleton] at hilen
    omega
  | add bc bc' t _ hadd ih =>
    have he := addTransaction_accepted_eq _ _ _ _ _ hadd
    subst he
    exact ih
  | mine bc bc' blk minerAddress rewardNow blockNow fuel _ hm ih =>
    obtain ⟨hchain, _, hdiff, _, ⟨latest, hlast, hprevlink⟩, _, _, _, _,
      hpre⟩ := minePending_spec _ _ _ _ _ _ _ _ hm
    obtain ⟨hne, hhead1, hhead2, hind⟩ := ih
    have hlenpos : 1 ≤ bc.chain.length := by
      cases hcn : bc.chain with
      | nil => exact absurd hcn hne
      | cons a l => simp
    refine ⟨?_, ?_, ?_, ?_⟩
    · rw [hchain]; simp
    · rw [hchain, headD_append _ _ _ hne]; exact hhead1
    · rw [hchain, headD_append _ _ _ hne]; exact hhead2
    · intro i hilen h1i
      rw [hchain] at hilen ⊢
      rw [List.length_append, List.length_singleton] at hilen
      rw [hdiff]
      by_cases hlt : i < bc.chain.length
      · have hlt' : i - 1 < bc.chain.length := by omega
        rw [getD_append_lt _ _ _ _ hlt, getD_append_lt _ _ _ _ hlt']
        exact hind i hlt h1i
      · have hieq : i = bc.chain.length := by omega
        subst hieq
        rw [getD_append_len]
        have hlt1 : bc.chain.length - 1 < bc.chain.length := by omega
        rw [getD_append_lt _ _ _ _ hlt1]
        constructor
        · rw [hprevlink, ← getLast?_getD dummyBlock bc.chain latest hlast]
        · exact hpre

/-- A hash model and signature verifier used for concrete witnesses: every
string hashes to `"0"`, every signature verifies. -/
def hZero : String → String := fun _ => "0"

/-- A signature verifier accepting everything, for concrete witnesses. -/
def vTrue : String → String → String → Bool := fun _ _ _ => true

/-- The ledger produced by `Blockchain.create hZero 1 100 0 1`. -/
def demoLedger : Blockchain :=
  { chain := [{ index := 0, timestamp := 0, transactions := [],
                previousHash := "0", nonce := 0, hash := "0" }],
    pendingTransactions := [], difficulty := 1, miningReward := 100 }

/-- Witness for C1 at a concrete constructed ledger. -/
theorem c1_ledger_invariant_witness : chainInvariant demoLedger :=
  c1_ledger_invariant hZero vTrue demoLedger
    (Reachable.init 1 100 0 1 demoLedger (by decide))

end Playground

namespace Playground

/-- A signature verifier rejecting everything, for counterexamples showing
that a code path never consults verification. -/
def vFalse : String → String → String → Bool := fun _ _ _ => false

/-- Fields of a successfully created mining-reward transaction. -/
theorem createMiningReward_spec (minerAddress : String) (reward now : Int)
    (t : Transaction)
    (h : Transaction.createMiningReward minerAddress reward now = some t) :
    t.sender = MINING_REWARD ∧ t.recipient = minerAddress ∧
    t.amount = reward ∧ t.signature = none := by
  unfold Transaction.createMiningReward Transaction.create at h
  split at h
  · exact absurd h (by simp)
  · simp only [Option.some.injEq] at h
    subst h
    exact ⟨rfl, rfl, rfl, rfl⟩

/-- C3. Whenever `Miner.mine(block)` at difficulty `N` returns, the returned
hash begins with `N` zero characters, `block.hash` has been set to that
hash, that hash equals the block's digest recomputed from `(index,
previousHash, timestamp, transactions, nonce)` at the returned nonce, and no
field of the block other than `nonce` and `hash` is modified. -/
theorem c3_mining_validity (H : String → String) (difficulty fuel : Nat)
    (b : Block) (r : MiningResult) (b' : Block)
    (h : Miner.mine H difficulty fuel b = some (r, b')) :
    strStartsWith r.hash (zeros difficulty) = true ∧
    b'.hash = r.hash ∧
    r.hash = Block.calculateHash H b' ∧
    b'.nonce = r.nonce ∧
    b'.index = b.index ∧ b'.timestamp = b.timestamp ∧
    b'.transactions = b.transactions ∧
    b'.previousHash = b.previousHash := by
  obtain ⟨hi, ht, htx, hp, hn, hh, hdig, hpre⟩ := mine_spec _ _ _ _ _ _ h
  exact ⟨hpre, hh, hdig, hn, hi, ht, htx, hp⟩

/-- A concrete block at which the `hZero` mining loop returns at once. -/
def demoMineBlock : Block :=
  { index := 5, timestamp := 7, transactions := [], previousHash := "ph",
    nonce := 0, hash := "0" }

/-- Witness for C3 at a concrete block and difficulty 1. -/
theorem c3_mining_validity_witness :
    strStartsWith (MiningResult.hash ⟨0, "0", 1⟩) (zeros 1) = true ∧
    demoMineBlock.hash = MiningResult.hash ⟨0, "0", 1⟩ ∧
    MiningResult.hash ⟨0, "0", 1⟩ = Block.calculateHash hZero demoMineBlock ∧
    demoMineBlock.nonce = MiningResult.nonce ⟨0, "0", 1⟩ ∧
    demoMineBlock.index = demoMineBlock.index ∧
    demoMineBlock.timestamp = demoMineBlock.timestamp ∧
    demoMineBlock.transactions = demoMineBlock.transactions ∧
    demoMineBlock.previousHash = demoMineBlock.previousHash :=
  c3_mining_validity hZero 1 1 demoMineBlock ⟨0, "0", 1⟩ demoMineBlock
    (by decide)

/-- C4. After a returning `minePendingTransactions(addr)` call the pending
pool is empty, exactly one block was appended, the appended block's
transactions are the prior pool in order followed by exactly one reward
transaction from the sentinel to `addr` for the ledger's mining reward, the
new block's index is the prior chain length, and its previousHash is the
prior head block's hash. -/
theorem c4_pending_lifecycle (H : String → String) (bc : Blockchain)
    (minerAddress : String) (rewardNow blockNow : Int) (fuel : Nat)
    (blk : Block) (bc' : Blockchain)
    (h : Blockchain.minePendingTransactions H bc minerAddress rewardNow
      blockNow fuel = some (blk, bc')) :
    bc'.pendingTransactions = [] ∧
    bc'.chain = bc.chain ++ [blk] ∧
    (∃ rewardTx, blk.transactions =
        bc.pendingTransactions ++ [rewardTx] ∧
      rewardTx.sender = MINING_REWARD ∧
      rewardTx.recipient = minerAddress ∧
      rewardTx.amount = bc.miningReward) ∧
    blk.index = (bc.chain.length : Int) ∧
    (∃ latest, bc.chain.getLast? = some latest ∧
      blk.previousHash = latest.hash) := by
  obtain ⟨hchain, hpend, _, _, hlatest, hidx, _, ⟨rewardTx, hcr, htx⟩, _, _⟩
    := minePending_spec _ _ _ _ _ _ _ _ h
  obtain ⟨hsend, hrecip, hamt, _⟩ := createMiningReward_spec _ _ _ _ hcr
  exact ⟨hpend, hchain, ⟨rewardTx, htx, hsend, hrecip, hamt⟩, hidx, hlatest⟩

/-- The reward transaction produced by mining on `demoLedger`. -/
def demoRewardTx : Transaction :=
  { sender := "MINING_REWARD", recipient := "miner", amount := 100,
    timestamp := 3, signature := none }

/-- The block mined on top of `demoLedger` by `hZero` at timestamps 3, 4. -/
def demoMinedBlock : Block :=
  { index := 1, timestamp := 4, transactions := [demoRewardTx],
    previousHash := "0", nonce := 0, hash := "0" }

/-- The ledger state after mining once on `demoLedger`. -/
def demoLedger2 : Blockchain :=
  { chain := demoLedger.chain ++ [demoMinedBlock],
    pendingTransactions := [], difficulty := 1, miningReward := 100 }

/-- Witness for C4 at the concrete `demoLedger` mining call. -/
theorem c4_pending_lifecycle_witness :
    demoLedger2.pendingTransactions = [] ∧
    demoLedger2.chain = demoLedger.chain ++ [demoMinedBlock] ∧
    (∃ rewardTx, demoMinedBlock.transactions =
        demoLedger.pendingTransactions ++ [rewardTx] ∧
      rewardTx.sender = MINING_REWARD ∧
      rewardTx.recipient = "miner" ∧
      rewardTx.amount = demoLedger.miningReward) ∧
    demoMinedBlock.index = (demoLedger.chain.length : Int) ∧
    (∃ latest, demoLedger.chain.getLast? = some latest ∧
      demoMinedBlock.previousHash = latest.hash) :=
  c4_pending_lifecycle hZero demoLedger "miner" 3 4 1 demoMinedBlock
    demoLedger2 (by decide)

end Playground

namespace Playground

/-- C5 (amended). `isValid` returns true whenever the sender is the reward
sentinel or the empty string; for any other sender it returns false when the
signature is absent, and otherwise exactly the result of verifying the
signature against the transaction digest under the sender public key. -/
theorem c5_isValid_amended (H : String → String)
    (V : String → String → String → Bool) (t : Transaction) :
    ((t.sender = MINING_REWARD ∨ t.sender = "") → t.isValid H V = true) ∧
    (t.sender ≠ MINING_REWARD → t.sender ≠ "" → t.signature = none →
      t.isValid H V = false) ∧
    (∀ sig, t.sender ≠ MINING_REWARD → t.sender ≠ "" →
      t.signature = some sig →
      t.isValid H V = V t.sender (t.calculateHash H) sig) := by
  unfold Transaction.isValid
  refine ⟨?_, ?_, ?_⟩
  · intro h
    rw [if_pos (Or.symm h)]
  · intro hm he hs
    rw [if_neg (by intro hc; cases hc with
      | inl h => exact he h
      | inr h => exact hm h), hs]
  · intro sig hm he hs
    rw [if_neg (by intro hc; cases hc with
      | inl h => exact he h
      | inr h => exact hm h), hs]

/-- Counterexample for C5 as stated: the transaction with empty (non
sentinel) sender and no signature is accepted as valid by `isValid`, where
the claim requires `false` for a missing signature on any non-sentinel
sender. -/
theorem c5_counterexample :
    (⟨"", "bob", 1, 0, none⟩ : Transaction).sender ≠ MINING_REWARD ∧
    (⟨"", "bob", 1, 0, none⟩ : Transaction).signature = none ∧
    Transaction.isValid hZero vFalse ⟨"", "bob", 1, 0, none⟩ = true := by
  decide

/-- Witness for C5 (amended) at three concrete transactions covering the
three clauses. -/
theorem c5_isValid_amended_witness :
    Transaction.isValid hZero vFalse
      ⟨"MINING_REWARD", "m", 5, 0, none⟩ = true ∧
    Transaction.isValid hZero vFalse ⟨"alice", "bob", 5, 0, none⟩ = false ∧
    Transaction.isValid hZero vFalse ⟨"alice", "bob", 5, 0, some "sg"⟩ =
      vFalse "alice"
        (Transaction.calculateHash hZero ⟨"alice", "bob", 5, 0, some "sg"⟩)
        "sg" :=
  ⟨(c5_isValid_amended hZero vFalse ⟨"MINING_REWARD", "m", 5, 0, none⟩).1
      (Or.inl rfl),
   (c5_isValid_amended hZero vFalse ⟨"alice", "bob", 5, 0, none⟩).2.1
      (by decide) (by decide) rfl,
   (c5_isValid_amended hZero vFalse ⟨"alice", "bob", 5, 0, some "sg"⟩).2.2
      "sg" (by decide) (by decide) rfl⟩

/-- C6. For a non-reward transaction that passes signature validation,
`addTransaction` throws `InsufficientBalance` exactly when the confirmed
balance is strictly below the amount, the pool is unchanged when it throws,
and a balance exactly equal to the amount is accepted. -/
theorem c6_insufficient_balance (H : String → String)
    (V : String → String → String → Bool) (bc : Blockchain)
    (t : Transaction) (hsender : t.sender ≠ MINING_REWARD)
    (hvalid : t.isValid H V = true) :
    (Blockchain.addTransaction H V bc t = .insufficientBalance bc ↔
      bc.getBalanceOfAddress t.sender < t.amount) ∧
    (∀ bc₂, Blockchain.addTransaction H V bc t =
        .insufficientBalance bc₂ →
      bc₂.pendingTransactions = bc.pendingTransactions) ∧
    (bc.getBalanceOfAddress t.sender = t.amount →
      Blockchain.addTransaction H V bc t = .accepted
        { bc with pendingTransactions :=
            bc.pendingTransactions ++ [t] }) := by
  unfold Blockchain.addTransaction
  rw [if_pos hsender, hvalid]
  simp only [not_true, if_false, Bool.not_true, Bool.false_eq_true,
    if_neg (fun h : False => h)]
  by_cases hlt : bc.getBalanceOfAddress t.sender < t.amount
  · rw [if_pos hlt]
    refine ⟨⟨fun _ => hlt, fun _ => rfl⟩, fun bc₂ h => ?_, fun heq => ?_⟩
    · simp only [AddTxResult.insufficientBalance.injEq] at h
      rw [← h]
    · rw [heq] at hlt
      exact absurd hlt (lt_irrefl _)
  · rw [if_neg hlt]
    refine ⟨⟨fun h => absurd h (by simp), fun h => absurd h hlt⟩,
      fun bc₂ h => absurd h (by simp), fun _ => rfl⟩

/-- Witness for C6: an unfunded sender with a validly signed transaction is
refused with `InsufficientBalance` and the pool stays empty. -/
theorem c6_insufficient_balance_witness :
    (Blockchain.addTransaction hZero vTrue demoLedger
        ⟨"alice", "bob", 5, 0, some "sg"⟩ = .insufficientBalance demoLedger
      ↔ demoLedger.getBalanceOfAddress "alice" < 5) ∧
    (∀ bc₂, Blockchain.addTransaction hZero vTrue demoLedger
        ⟨"alice", "bob", 5, 0, some "sg"⟩ = .insufficientBalance bc₂ →
      bc₂.pendingTransactions = demoLedger.pendingTransactions) ∧
    (demoLedger.getBalanceOfAddress "alice" = 5 →
      Blockchain.addTransaction hZero vTrue demoLedger
        ⟨"alice", "bob", 5, 0, some "sg"⟩ = .accepted
        { demoLedger with pendingTransactions :=
            demoLedger.pendingTransactions ++
              [⟨"alice", "bob", 5, 0, some "sg"⟩] }) :=
  c6_insufficient_balance hZero vTrue demoLedger
    ⟨"alice", "bob", 5, 0, some "sg"⟩ (by decide) (by decide)

/-- C10. A transaction whose sender is the reward sentinel bypasses both the
signature check and the balance check: `addTransaction` returns true and
appends it to the pending pool, for every verifier and every ledger state. -/
theorem c10_reward_sender_bypass (H : String → String)
    (V : String → String → String → Bool) (bc : Blockchain)
    (t : Transaction) (h : t.sender = MINING_REWARD) :
    Blockchain.addTransaction H V bc t = .accepted
      { bc with pendingTransactions := bc.pendingTransactions ++ [t] } := by
  unfold Blockchain.addTransaction
  rw [if_neg (fun hne => hne h)]

/-- Witness for C10: anyone can push an unsigned 1000000-coin mint to the
pool through the public interface, even under the all-rejecting verifier. -/
theorem c10_reward_sender_bypass_witness :
    Blockchain.addTransaction hZero vFalse demoLedger
      ⟨"MINING_REWARD", "eve", 1000000, 0, none⟩ = .accepted
      { demoLedger with pendingTransactions :=
          demoLedger.pendingTransactions ++
            [⟨"MINING_REWARD", "eve", 1000000, 0, none⟩] } :=
  c10_reward_sender_bypass hZero vFalse demoLedger
    ⟨"MINING_REWARD", "eve", 1000000, 0, none⟩ (by decide)

end Playground

namespace Playground

/-- The confirmed balance reads only the chain, never the pending pool. -/
theorem getBalance_ignores_pending (bc : Blockchain)
    (p : List Transaction) (address : String) :
    Blockchain.getBalanceOfAddress
      { bc with pendingTransactions := p } address =
    bc.getBalanceOfAddress address := rfl

/-- C9. Two valid signed transactions from the same non-sentinel sender,
each individually within the confirmed balance, are both admitted in
sequence even when together they overspend it: the admission check reads
only confirmed chain state, never the pending pool. -/
theorem c9_no_pending_reservation (H : String → String)
    (V : String → String → String → Bool) (bc : Blockchain)
    (t1 t2 : Transaction) (hs1 : t1.sender ≠ MINING_REWARD)
    (hs2 : t2.sender = t1.sender)
    (hv1 : t1.isValid H V = true) (hv2 : t2.isValid H V = true)
    (ha1 : t1.amount ≤ bc.getBalanceOfAddress t1.sender)
    (ha2 : t2.amount ≤ bc.getBalanceOfAddress t1.sender) :
    Blockchain.addTransaction H V bc t1 = .accepted
      { bc with pendingTransactions := bc.pendingTransactions ++ [t1] } ∧
    Blockchain.addTransaction H V
      { bc with pendingTransactions := bc.pendingTransactions ++ [t1] } t2
      = .accepted { bc with pendingTransactions :=
          (bc.pendingTransactions ++ [t1]) ++ [t2] } := by
  constructor
  · unfold Blockchain.addTransaction
    rw [if_pos hs1, hv1]
    simp only [not_true, Bool.not_true, Bool.false_eq_true,
      if_neg (fun h : False => h)]
    rw [if_neg (not_lt.mpr ha1)]
  · unfold Blockchain.addTransaction
    rw [if_pos (hs2 ▸ hs1), hv2]
    simp only [not_true, Bool.not_true, Bool.false_eq_true,
      if_neg (fun h : False => h)]
    rw [getBalance_ignores_pending, hs2, if_neg (not_lt.mpr ha2)]

end Playground

namespace Playground

/-- Witness for C9: the miner of `demoLedger2` holds 100 confirmed coins and
gets two 60-coin spends admitted against the same confirmed balance. -/
theorem c9_no_pending_reservation_witness :
    Blockchain.addTransaction hZero vTrue demoLedger2
      ⟨"miner", "bob", 60, 5, some "s1"⟩ = .accepted
      { demoLedger2 with pendingTransactions :=
          demoLedger2.pendingTransactions ++
            [⟨"miner", "bob", 60, 5, some "s1"⟩] } ∧
    Blockchain.addTransaction hZero vTrue
      { demoLedger2 with pendingTransactions :=
          demoLedger2.pendingTransactions ++
            [⟨"miner", "bob", 60, 5, some "s1"⟩] }
      ⟨"miner", "carol", 60, 6, some "s2"⟩ = .accepted
      { demoLedger2 with pendingTransactions :=
          (demoLedger2.pendingTransactions ++
            [⟨"miner", "bob", 60, 5, some "s1"⟩]) ++
            [⟨"miner", "carol", 60, 6, some "s2"⟩] } :=
  c9_no_pending_reservation hZero vTrue demoLedger2
    ⟨"miner", "bob", 60, 5, some "s1"⟩
    ⟨"miner", "carol", 60, 6, some "s2"⟩
    (by decide) (by decide) (by decide) (by decide) (by decide) (by decide)

/-- The list of all confirmed transactions of a chain, in chain order. -/
def blocksTxs (chain : List Block) : List Transaction :=
  chain.foldr (fun b acc => b.transactions ++ acc) []

/-- The confirmed transactions of a ledger. -/
def confirmedTxs (bc : Blockchain) : List Transaction :=
  blocksTxs bc.chain

/-- The inner transaction fold of `getBalanceOfAddress` adds the received
amounts and subtracts the sent amounts. -/
theorem balance_txFold (address : String) (l : List Transaction) :
    ∀ a : Int,
      l.foldl (fun balance t =>
        let balance := if t.sender = address then balance - t.amount
                       else balance
        if t.recipient = address then balance + t.amount else balance) a
      = a +
        ((l.filter (fun t => t.recipient = address)).map
          Transaction.amount).sum -
        ((l.filter (fun t => t.sender = address)).map
          Transaction.amount).sum := by
  induction l with
  | nil => intro a; simp
  | cons t rest ih =>
    intro a
    rw [List.foldl_cons, ih]
    by_cases hs : t.sender = address <;>
      by_cases hr : t.recipient = address <;>
      simp [List.filter_cons, hs, hr] <;> omega

/-- The outer block fold of `getBalanceOfAddress` accumulates the same sums
over all confirmed transactions. -/
theorem balance_blocksFold (address : String) (chain : List Block) :
    ∀ a : Int,
      chain.foldl (fun balance b =>
        b.transactions.foldl (fun balance t =>
          let balance := if t.sender = address then balance - t.amount
                         else balance
          if t.recipient = address then balance + t.amount else balance)
          balance) a
      = a +
        (((blocksTxs chain).filter
          (fun t => t.recipient = address)).map Transaction.amount).sum -
        (((blocksTxs chain).filter
          (fun t => t.sender = address)).map Transaction.amount).sum := by
  induction chain with
  | nil => intro a; simp [blocksTxs]
  | cons b rest ih =>
    intro a
    rw [List.foldl_cons, ih, balance_txFold]
    simp only [blocksTxs, List.foldr_cons, List.filter_append,
      List.map_append, List.sum_append]
    omega

/-- C7. The balance of an address is the sum of confirmed amounts received
minus the sum of confirmed amounts sent, and the pending pool contributes
nothing. -/
theorem c7_balance_law (bc : Blockchain) (address : String) :
    bc.getBalanceOfAddress address =
      (((confirmedTxs bc).filter (fun t => t.recipient = address)).map
        Transaction.amount).sum -
      (((confirmedTxs bc).filter (fun t => t.sender = address)).map
        Transaction.amount).sum ∧
    ∀ p, Blockchain.getBalanceOfAddress
      { bc with pendingTransactions := p } address =
      bc.getBalanceOfAddress address := by
  constructor
  · have h := balance_blocksFold address bc.chain 0
    unfold Blockchain.getBalanceOfAddress
    rw [h]
    unfold confirmedTxs
    omega
  · intro p
    rfl

end Playground

namespace Playground

/-! ## Deserialization layer

`Block.fromJSON` checks the six block fields' presence and types, rebuilds
the block, and throws `InvalidBlockError` when the recomputed digest differs
from the stored hash. The elements of the `transactions` array are NOT
validated (the source casts them with `as ITransaction[]`), so the raw
JSON array is kept, exactly as the cast does; the digest is recomputed over
the stringified raw array, as in the source, where the rebuilt block aliases
it. `Blockchain.fromJSON` checks the four ledger fields' presence and types,
decodes every chain entry through `Block.fromJSON`, and keeps the
`pendingTransactions` entries unvalidated (also a bare cast in the source).
The transient genesis block constructed by `new Blockchain(...)` inside
`Blockchain.fromJSON` is immediately overwritten and affects only
termination of that call, so it is elided here. -/

/-- The value rebuilt by `Block.fromJSON`: block fields plus the raw
(unvalidated) transactions array. -/
structure RawBlock where
  index : Int
  timestamp : Int
  transactions : List Json
  previousHash : String
  nonce : Int
  hash : String

/-- `Block.fromJSON`. -/
def Block.fromJson (H : String → String) (j : Json) :
    Except String RawBlock :=
  match j.getField "index", j.getField "timestamp",
      j.getField "transactions", j.getField "previousHash",
      j.getField "nonce", j.getField "hash" with
  | some (.num index), some (.num timestamp), some (.arr txs),
      some (.str previousHash), some (.num nonce), some (.str hash) =>
    if H (toString index ++ previousHash ++ toString timestamp ++
        Json.stringify (.arr txs) ++ toString nonce) = hash then
      .ok { index := index, timestamp := timestamp, transactions := txs,
            previousHash := previousHash, nonce := nonce, hash := hash }
    else
      .error "InvalidBlockError: hash mismatch"
  | _, _, _, _, _, _ => .error "InvalidBlockError: missing required fields"

/-- The value rebuilt by `Blockchain.fromJSON`: decoded blocks plus the raw
(unvalidated) pending transactions. -/
structure RawChain where
  chain : List RawBlock
  pendingTransactions : List Json
  difficulty : Int
  miningReward : Int

/-- `data.chain.map(Block.fromJSON)`: the first failing entry aborts. -/
def decodeBlocks (H : String → String) : List Json →
    Except String (List RawBlock)
  | [] => .ok []
  | j :: rest =>
    match Block.fromJson H j with
    | .error e => .error e
    | .ok b =>
      match decodeBlocks H rest with
      | .error e => .error e
      | .ok bs => .ok (b :: bs)

/-- `Blockchain.fromJSON`. -/
def Blockchain.fromJson (H : String → String) (j : Json) :
    Except String RawChain :=
  match j.getField "chain", j.getField "pendingTransactions",
      j.getField "difficulty", j.getField "miningReward" with
  | some (.arr chainJ), some (.arr pendingJ), some (.num difficulty),
      some (.num miningReward) =>
    match decodeBlocks H chainJ with
    | .error e => .error e
    | .ok blocks =>
      .ok { chain := blocks, pendingTransactions := pendingJ,
            difficulty := difficulty, miningReward := miningReward }
  | _, _, _, _ => .error "missing required blockchain fields"

/-- The raw image of an in-memory block under serialization. -/
def Block.toRaw (b : Block) : RawBlock :=
  { index := b.index, timestamp := b.timestamp,
    transactions := b.transactions.map Transaction.toJSON,
    previousHash := b.previousHash, nonce := b.nonce, hash := b.hash }

/-- Deserializing a serialized block succeeds exactly when the stored hash
recomputes, and then returns the block's raw image. -/
theorem blockFromJson_toJSON (H : String → String) (b : Block) :
    Block.fromJson H (Block.toJSON b) =
      if Block.calculateHash H b = b.hash then .ok b.toRaw
      else .error "InvalidBlockError: hash mismatch" := rfl

end Playground

namespace Playground

/-- In-bounds `getD` returns a member of the list. -/
theorem getD_mem {α : Type} (d : α) :
    ∀ (l : List α) (i : Nat), i < l.length → l.getD i d ∈ l := by
  intro l
  induction l with
  | nil => intro i h; exact absurd h (Nat.not_lt_zero i)
  | cons a t ih =>
    intro i h
    cases i with
    | zero => exact List.mem_cons_self a t
    | succ j => exact List.mem_cons_of_mem a (ih j (Nat.lt_of_succ_lt_succ h))

/-- A single failed loop-body check forces `isChainValid` to `false`. -/
theorem isChainValid_false_of (H : String → String) (bc : Blockchain)
    (i : Nat) (h1 : 1 ≤ i) (h2 : i < bc.chain.length)
    (hbad : blockOk H (zeros bc.difficulty)
      (bc.chain.getD (i - 1) dummyBlock)
      (bc.chain.getD i dummyBlock) = false) :
    bc.isChainValid H = false := by
  cases hval : bc.isChainValid H with
  | false => rfl
  | true =>
    exfalso
    unfold Blockchain.isChainValid at hval
    rw [List.all_eq_true] at hval
    have hi := hval i (List.mem_range.mpr h2)
    simp only [] at hi
    rw [if_neg (by omega), hbad] at hi
    exact Bool.false_ne_true hi

/-- A single stored field of a block, together with the value it is changed
to. -/
inductive FieldChange where
  | chIndex (v : Int) : FieldChange
  | chTimestamp (v : Int) : FieldChange
  | chTransactions (v : List Transaction) : FieldChange
  | chPreviousHash (v : String) : FieldChange
  | chNonce (v : Int) : FieldChange
  | chHash (v : String) : FieldChange
deriving DecidableEq, Repr

/-- Overwrite the chosen stored field of a block. -/
def applyChange : FieldChange → Block → Block
  | .chIndex v, b => { b with index := v }
  | .chTimestamp v, b => { b with timestamp := v }
  | .chTransactions v, b => { b with transactions := v }
  | .chPreviousHash v, b => { b with previousHash := v }
  | .chNonce v, b => { b with nonce := v }
  | .chHash v, b => { b with hash := v }

/-- Changing the `hash` field never changes the recomputed digest. -/
theorem applyChange_hash_calc (H : String → String) (v : String)
    (b : Block) :
    Block.calculateHash H (applyChange (.chHash v) b) =
      Block.calculateHash H b := rfl

/-- Changing a field other than `hash` never changes the stored hash. -/
theorem applyChange_nonhash_hash (c : FieldChange) (b : Block)
    (h : ∀ v, c ≠ .chHash v) :
    (applyChange c b).hash = b.hash := by
  cases c with
  | chIndex v => rfl
  | chTimestamp v => rfl
  | chTransactions v => rfl
  | chPreviousHash v => rfl
  | chNonce v => rfl
  | chHash v => exact absurd rfl (h v)

/-- C2 (amended). For a well-formed chain of `N ≥ 2` blocks, changing one
stored field of `chain[k]` (`k + 1 < N`) to a value on which the recomputed
digest no longer matches the stored hash, or changing the stored hash
itself: reloading the tampered block always fails with `InvalidBlock`, and
in-memory `isChainValid()` returns `false` whenever `k ≥ 1` or the changed
field is the stored hash (an in-memory change to a non-hash field of the
genesis block is the one case `isChainValid` does not detect — the reload
conclusion holds there unconditionally). -/
theorem c2_tamper_detection (H : String → String) (bc : Blockchain)
    (k : Nat) (c : FieldChange)
    (hinv : chainInvariant bc) (hwf : blocksWF H bc)
    (hk : k + 1 < bc.chain.length)
    (hdet : Block.calculateHash H
        (applyChange c (bc.chain.getD k dummyBlock)) ≠
        (bc.chain.getD k dummyBlock).hash ∨
      (applyChange c (bc.chain.getD k dummyBlock)).hash ≠
        (bc.chain.getD k dummyBlock).hash) :
    ((1 ≤ k ∨
      (applyChange c (bc.chain.getD k dummyBlock)).hash ≠
        (bc.chain.getD k dummyBlock).hash) →
      Blockchain.isChainValid H
        { bc with chain := (bc.chain.set k
            (applyChange c (bc.chain.getD k dummyBlock))) } = false) ∧
    (∃ e, Block.fromJson H
      (Block.toJSON (applyChange c (bc.chain.getD k dummyBlock))) =
      .error e) := by
  have hklen : k < bc.chain.length := by omega
  have hwfk : (bc.chain.getD k dummyBlock).hash =
      Block.calculateHash H (bc.chain.getD k dummyBlock) :=
    hwf _ (getD_mem dummyBlock bc.chain k hklen)
  have hmismatch : Block.calculateHash H
      (applyChange c (bc.chain.getD k dummyBlock)) ≠
      (applyChange c (bc.chain.getD k dummyBlock)).hash := by
    cases hc : c with
    | chHash v =>
      rw [hc] at hdet
      cases hdet with
      | inl h =>
        rw [applyChange_hash_calc] at h
        exact absurd hwfk.symm h
      | inr h =>
        rw [applyChange_hash_calc, ← hwfk]
        exact fun he => h he.symm
    | chIndex v =>
      rw [applyChange_nonhash_hash (.chIndex v) _ (by intro w hw; cases hw)]
      rw [hc] at hdet
      cases hdet with
      | inl h => exact h
      | inr h =>
        rw [applyChange_nonhash_hash (.chIndex v) _
          (by intro w hw; cases hw)] at h
        exact absurd rfl h
    | chTimestamp v =>
      rw [applyChange_nonhash_hash (.chTimestamp v) _
        (by intro w hw; cases hw)]
      rw [hc] at hdet
      cases hdet with
      | inl h => exact h
      | inr h =>
        rw [applyChange_nonhash_hash (.chTimestamp v) _
          (by intro w hw; cases hw)] at h
        exact absurd rfl h
    | chTransactions v =>
      rw [applyChange_nonhash_hash (.chTransactions v) _
        (by intro w hw; cases hw)]
      rw [hc] at hdet
      cases hdet with
      | inl h => exact h
      | inr h =>
        rw [applyChange_nonhash_hash (.chTransactions v) _
          (by intro w hw; cases hw)] at h
        exact absurd rfl h
    | chPreviousHash v =>
      rw [applyChange_nonhash_hash (.chPreviousHash v) _
        (by intro w hw; cases hw)]
      rw [hc] at hdet
      cases hdet with
      | inl h => exact h
      | inr h =>
        rw [applyChange_nonhash_hash (.chPreviousHash v) _
          (by intro w hw; cases hw)] at h
        exact absurd rfl h
    | chNonce v =>
      rw [applyChange_nonhash_hash (.chNonce v) _ (by intro w hw; cases hw)]
      rw [hc] at hdet
      cases hdet with
      | inl h => exact h
      | inr h =>
        rw [applyChange_nonhash_hash (.chNonce v) _
          (by intro w hw; cases hw)] at h
        exact absurd rfl h
  constructor
  · intro hcase
    by_cases hbh : (applyChange c (bc.chain.getD k dummyBlock)).hash =
        (bc.chain.getD k dummyBlock).hash
    · have hk1 : 1 ≤ k := by
        cases hcase with
        | inl h => exact h
        | inr h => exact absurd hbh h
      apply isChainValid_false_of H _ k hk1
        (by simp only [List.length_set]; omega)
      have hget : (bc.chain.set k
          (applyChange c (bc.chain.getD k dummyBlock))).getD k dummyBlock =
          applyChange c (bc.chain.getD k dummyBlock) :=
        getD_set_eq _ _ _ _ hklen
      have hc1 : ((applyChange c (bc.chain.getD k dummyBlock)).hash ==
          Block.calculateHash H
          (applyChange c (bc.chain.getD k dummyBlock))) = false := by
        rw [beq_eq_false_iff_ne]
        intro he
        exact hmismatch he.symm
      simp only [hget]
      unfold blockOk
      rw [hc1]
      rfl
    · apply isChainValid_false_of H _ (k + 1) (by omega)
        (by simp only [List.length_set]; omega)
      have hgetk : (bc.chain.set k
          (applyChange c (bc.chain.getD k dummyBlock))).getD k dummyBlock =
          applyChange c (bc.chain.getD k dummyBlock) :=
        getD_set_eq _ _ _ _ hklen
      have hgetk1 : (bc.chain.set k
          (applyChange c (bc.chain.getD k dummyBlock))).getD (k + 1)
          dummyBlock = bc.chain.getD (k + 1) dummyBlock :=
        getD_set_ne _ _ _ _ _ (by omega)
      obtain ⟨-, -, -, hind⟩ := hinv
      have hlink := (hind (k + 1) hk (by omega)).1
      have hc2 : ((bc.chain.getD (k + 1) dummyBlock).previousHash ==
          (applyChange c (bc.chain.getD k dummyBlock)).hash) = false := by
        rw [beq_eq_false_iff_ne, hlink]
        simp only [Nat.add_sub_cancel]
        exact fun he => hbh he.symm
      simp only [Nat.add_sub_cancel, hgetk, hgetk1]
      unfold blockOk
      rw [hc2]
      simp
  · refine ⟨"InvalidBlockError: hash mismatch", ?_⟩
    rw [blockFromJson_toJSON, if_neg hmismatch]

end Playground

namespace Playground

/-- An injective hash model for tampering scenarios: distinct pre-images
give distinct digests, so no accidental collisions occur. -/
def hInj : String → String := fun s => "0" ++ s

/-- A three-block well-formed chain at difficulty 1 under `hInj`. -/
def demoChainP : Blockchain :=
  { chain :=
      [{ index := 0, timestamp := 0, transactions := [],
         previousHash := "0", nonce := 0, hash := "0000[]0" },
       { index := 1, timestamp := 1, transactions := [],
         previousHash := "0000[]0", nonce := 0, hash := "010000[]01[]0" },
       { index := 2, timestamp := 2, transactions := [],
         previousHash := "010000[]01[]0", nonce := 0,
         hash := "02010000[]01[]02[]0" }],
    pendingTransactions := [], difficulty := 1, miningReward := 100 }

/-- Counterexample for C2 as stated: on a well-formed chain with `N = 3`
blocks, changing the genesis block's `timestamp` field (`k = 0 < N-1`) to a
different value — with the recomputed digest provably differing from the
stored hash, so there is no collision — still leaves `isChainValid()`
returning `true`, because the validation loop starts at `i = 1` and never
recomputes the genesis block's own hash. -/
theorem c2_counterexample :
    chainInvariant demoChainP ∧
    blocksWF hInj demoChainP ∧
    2 ≤ demoChainP.chain.length ∧
    Block.calculateHash hInj
      (applyChange (.chTimestamp 99) (demoChainP.chain.getD 0 dummyBlock))
      ≠ (demoChainP.chain.getD 0 dummyBlock).hash ∧
    applyChange (.chTimestamp 99) (demoChainP.chain.getD 0 dummyBlock) ≠
      demoChainP.chain.getD 0 dummyBlock ∧
    Blockchain.isChainValid hInj
      { demoChainP with chain := (demoChainP.chain.set 0
          (applyChange (.chTimestamp 99)
            (demoChainP.chain.getD 0 dummyBlock))) } = true := by
  decide

/-- Witness for C2 (amended): changing `chain[1].timestamp` on the concrete
chain is caught by `isChainValid` and by block reload, and changing
`chain[0].timestamp` (the case `isChainValid` misses) is still caught by
block reload. -/
theorem c2_tamper_detection_witness :
    Blockchain.isChainValid hInj
      { demoChainP with chain := (demoChainP.chain.set 1
          (applyChange (.chTimestamp 99)
            (demoChainP.chain.getD 1 dummyBlock))) } = false ∧
    (∃ e, Block.fromJson hInj
      (Block.toJSON (applyChange (.chTimestamp 99)
        (demoChainP.chain.getD 1 dummyBlock))) = .error e) ∧
    (∃ e, Block.fromJson hInj
      (Block.toJSON (applyChange (.chTimestamp 99)
        (demoChainP.chain.getD 0 dummyBlock))) = .error e) :=
  ⟨(c2_tamper_detection hInj demoChainP 1 (.chTimestamp 99)
      (by decide) (by decide) (by decide) (Or.inl (by decide))).1
    (Or.inl (by decide)),
   (c2_tamper_detection hInj demoChainP 1 (.chTimestamp 99)
      (by decide) (by decide) (by decide) (Or.inl (by decide))).2,
   (c2_tamper_detection hInj demoChainP 0 (.chTimestamp 99)
      (by decide) (by decide) (by decide) (Or.inl (by decide))).2⟩

end Playground

namespace Playground

/-- Decoding the serialized chain of well-formed blocks recovers their raw
images. -/
theorem decodeBlocks_map_toJSON (H : String → String)
    (chain : List Block)
    (hwf : ∀ b ∈ chain, b.hash = Block.calculateHash H b) :
    decodeBlocks H (chain.map Block.toJSON) =
      .ok (chain.map Block.toRaw) := by
  induction chain with
  | nil => rfl
  | cons b rest ih =>
    simp only [List.map_cons, decodeBlocks]
    rw [blockFromJson_toJSON,
      if_pos ((hwf b (List.mem_cons_self b _)).symm)]
    rw [ih (fun x hx => hwf x (List.mem_cons_of_mem b hx))]

/-- Serialize-then-deserialize on a ledger of well-formed blocks succeeds
and is the raw image field-wise. -/
theorem blockchainFromJson_roundtrip (H : String → String)
    (bc : Blockchain) (hwf : blocksWF H bc) :
    Blockchain.fromJson H (Blockchain.toJSON bc) = .ok
      { chain := bc.chain.map Block.toRaw,
        pendingTransactions :=
          bc.pendingTransactions.map Transaction.toJSON,
        difficulty := (bc.difficulty : Int),
        miningReward := bc.miningReward } := by
  have hstep : Blockchain.fromJson H (Blockchain.toJSON bc) =
      match decodeBlocks H (bc.chain.map Block.toJSON) with
      | .error e => .error e
      | .ok blocks =>
        .ok { chain := blocks,
              pendingTransactions :=
                bc.pendingTransactions.map Transaction.toJSON,
              difficulty := (bc.difficulty : Int),
              miningReward := bc.miningReward } := rfl
  rw [hstep, decodeBlocks_map_toJSON H bc.chain hwf]

/-- Every chain entry of a successfully decoded ledger decodes as a block. -/
theorem decodeBlocks_ok_mem (H : String → String) :
    ∀ (l : List Json) (bs : List RawBlock), decodeBlocks H l = .ok bs →
      ∀ j ∈ l, ∃ rb, Block.fromJson H j = .ok rb := by
  intro l
  induction l with
  | nil => intro bs _ j hj; exact absurd hj (List.not_mem_nil j)
  | cons a rest ih =>
    intro bs h j hj
    unfold decodeBlocks at h
    split at h
    · exact absurd h (by simp)
    · rename_i b hb
      split at h
      · exact absurd h (by simp)
      · rename_i bs' hbs
        cases List.mem_cons.mp hj with
        | inl he => exact he ▸ ⟨b, hb⟩
        | inr ht => exact ih bs' hbs j ht

/-- A successful ledger decode implies that all four ledger fields were
present with the right shapes and that every chain entry decoded. -/
theorem blockchainFromJson_shape (H : String → String) (j : Json)
    (r : RawChain) (h : Blockchain.fromJson H j = .ok r) :
    (∃ chainJ, j.getField "chain" = some (.arr chainJ) ∧
      ∀ bj ∈ chainJ, ∃ rb, Block.fromJson H bj = .ok rb) ∧
    (∃ pendingJ,
      j.getField "pendingTransactions" = some (.arr pendingJ)) ∧
    (∃ d, j.getField "difficulty" = some (.num d)) ∧
    (∃ m, j.getField "miningReward" = some (.num m)) := by
  unfold Blockchain.fromJson at h
  split at h
  · rename_i chainJ pendingJ difficulty miningReward h1 h2 h3 h4
    split at h
    · exact absurd h (by simp)
    · rename_i blocks hblocks
      exact ⟨⟨chainJ, h1, decodeBlocks_ok_mem H chainJ blocks hblocks⟩,
        ⟨pendingJ, h2⟩, ⟨difficulty, h3⟩, ⟨miningReward, h4⟩⟩
  · exact absurd h (by simp)

/-- A successful block decode implies that all six block fields were present
with the right shapes and that the stored hash equals the recomputed
digest. -/
theorem blockFromJson_shape (H : String → String) (j : Json)
    (rb : RawBlock) (h : Block.fromJson H j = .ok rb) :
    j.getField "index" = some (.num rb.index) ∧
    j.getField "timestamp" = some (.num rb.timestamp) ∧
    j.getField "transactions" = some (.arr rb.transactions) ∧
    j.getField "previousHash" = some (.str rb.previousHash) ∧
    j.getField "nonce" = some (.num rb.nonce) ∧
    j.getField "hash" = some (.str rb.hash) ∧
    H (toString rb.index ++ rb.previousHash ++ toString rb.timestamp ++
      Json.stringify (.arr rb.transactions) ++ toString rb.nonce) =
      rb.hash := by
  unfold Block.fromJson at h
  split at h
  · rename_i index timestamp txs previousHash nonce hash h1 h2 h3 h4 h5 h6
    split at h
    · rename_i hhash
      simp only [Except.ok.injEq] at h
      subst h
      exact ⟨h1, h2, h3, h4, h5, h6, hhash⟩
    · exact absurd h (by simp)
  · exact absurd h (by simp)

/-- C8 (amended). Reconstructing a ledger from its serialized form succeeds
on well-formed serializations and returns the serialized fields verbatim;
it fails with `InvalidBlock` on any block whose stored hash does not
recompute; a success guarantees all ledger-level and block-level fields were
present with the right shapes; but the entries of `pendingTransactions`
(and the transaction elements inside blocks) are themselves carried over
without validation. -/
theorem c8_serialization_amended :
    (∀ (H : String → String) (bc : Blockchain), blocksWF H bc →
      Blockchain.fromJson H (Blockchain.toJSON bc) = .ok
        { chain := bc.chain.map Block.toRaw,
          pendingTransactions :=
            bc.pendingTransactions.map Transaction.toJSON,
          difficulty := (bc.difficulty : Int),
          miningReward := bc.miningReward }) ∧
    (∀ (H : String → String) (b : Block),
      Block.calculateHash H b ≠ b.hash →
      Block.fromJson H (Block.toJSON b) =
        .error "InvalidBlockError: hash mismatch") ∧
    (∀ (H : String → String) (j : Json) (r : RawChain),
      Blockchain.fromJson H j = .ok r →
      (∃ chainJ, j.getField "chain" = some (.arr chainJ) ∧
        ∀ bj ∈ chainJ, ∃ rb, Block.fromJson H bj = .ok rb) ∧
      (∃ pendingJ,
        j.getField "pendingTransactions" = some (.arr pendingJ)) ∧
      (∃ d, j.getField "difficulty" = some (.num d)) ∧
      (∃ m, j.getField "miningReward" = some (.num m))) ∧
    (∀ (H : String → String) (j : Json) (rb : RawBlock),
      Block.fromJson H j = .ok rb →
      j.getField "index" = some (.num rb.index) ∧
      j.getField "timestamp" = some (.num rb.timestamp) ∧
      j.getField "transactions" = some (.arr rb.transactions) ∧
      j.getField "previousHash" = some (.str rb.previousHash) ∧
      j.getField "nonce" = some (.num rb.nonce) ∧
      j.getField "hash" = some (.str rb.hash) ∧
      H (toString rb.index ++ rb.previousHash ++ toString rb.timestamp ++
        Json.stringify (.arr rb.transactions) ++ toString rb.nonce) =
        rb.hash) :=
  ⟨blockchainFromJson_roundtrip,
   fun H b hne => by rw [blockFromJson_toJSON, if_neg hne],
   blockchainFromJson_shape,
   blockFromJson_shape⟩

/-- A serialized ledger whose pending pool holds a bare number in place of a
transaction object (every transaction field missing). -/
def malformedLedgerJson : Json :=
  .obj [("chain", .arr [.obj [("index", .num 0), ("timestamp", .num 0),
          ("transactions", .arr []), ("previousHash", .str "0"),
          ("nonce", .num 0), ("hash", .str "0")]]),
        ("pendingTransactions", .arr [.num 7]),
        ("difficulty", .num 2), ("miningReward", .num 5)]

/-- Counterexample for C8 as stated: a serialized pending transaction of the
wrong shape (a bare number, all fields missing) does not make
`Blockchain.fromJSON` fail — it is carried over unvalidated. -/
theorem c8_counterexample :
    Blockchain.fromJson hZero malformedLedgerJson =
      .ok { chain := [{ index := 0, timestamp := 0,
                        transactions := [], previousHash := "0",
                        nonce := 0, hash := "0" }],
            pendingTransactions := [.num 7], difficulty := 2,
            miningReward := 5 } := rfl

/-- Witness for C8 (amended): a concrete round trip and a concrete
hash-mismatch rejection. -/
theorem c8_serialization_amended_witness :
    Blockchain.fromJson hInj (Blockchain.toJSON demoChainP) = .ok
      { chain := demoChainP.chain.map Block.toRaw,
        pendingTransactions := [], difficulty := 1, miningReward := 100 } ∧
    Block.fromJson hInj (Block.toJSON (applyChange (.chHash "X")
      (demoChainP.chain.getD 0 dummyBlock))) =
      .error "InvalidBlockError: hash mismatch" :=
  ⟨c8_serialization_amended.1 hInj demoChainP (by decide),
   c8_serialization_amended.2.1 hInj
     (applyChange (.chHash "X") (demoChainP.chain.getD 0 dummyBlock))
     (by decide)⟩

end Playground
